import Mathlib

/-!
Shallow embedding of `smallsh.c`, a line-oriented command interpreter.

C strings are modelled as `List Char` (`Str`).  The only delimiter the
program ever passes to `strtok` is a single space, so tokenisation is
space-delimited.  `strstr`-based substring search (`ContainsString`) is
modelled as list-infix search.  Machine-level details are modelled
explicitly where a claim depends on them: the 512-token cap of the
argument array (`MAX_ARGS - 1`), the in-place mutation `strtok` performs
on the scanned buffer (`strtokResidual`), the Linux wait-status encoding
and the `WIFSIGNALED` / `WEXITSTATUS` / `WTERMSIG` macros, the 80-byte
fixed-size write of the SIGCHLD handler, and the `size_t` underflow of
`strlen(s) - 1` in `RemoveNewLineAndAddNullTerm`.

`snprintf` truncation of the pid / status scratch buffers is not
modelled: the buffers (10 and 5 bytes) never truncate for the value
ranges the program produces (Linux pids are below 2^22, `WEXITSTATUS`
is below 256, `WTERMSIG` below 128), so `%d` conversion is modelled as
plain decimal rendering via `Nat.toDigits 10`.
-/

namespace Smallsh

/-- A C string (up to its NUL terminator). -/
abbrev Str := List Char

/-- The single delimiter character used by every `strtok` call in the source. -/
def isSpace (c : Char) : Bool := decide (c = ' ')

/-- Negation of `isSpace`; token characters. -/
def notSpace (c : Char) : Bool := ! isSpace c

/-- The output-redirection marker `">"`. -/
def outSym : Str := ['>']

/-- The input-redirection marker `"<"`. -/
def inSym : Str := ['<']

/-- The background marker `"&"`. -/
def ampSym : Str := ['&']

/-- `ContainsString` (smallsh.c:637-652): `strstr(hay, needle) != NULL`,
i.e. `needle` occurs as a contiguous substring of `hay`. -/
def ContainsString (hay needle : Str) : Bool := decide (needle <:+: hay)

/-- Fuel-driven model of repeated `strtok(s, " ")` calls: the ordered list
of space-delimited tokens of `l` (runs of spaces act as one delimiter and
produce no empty tokens).  Structural in the fuel so that it evaluates in
the kernel; `tokens` instantiates the fuel with the list length, which is
always sufficient. -/
def tokensFuel : Nat → Str → List Str
  | 0, _ => []
  | fuel + 1, l =>
    match l.dropWhile isSpace with
    | [] => []
    | c :: cs => ((c :: cs).takeWhile notSpace) :: tokensFuel fuel ((c :: cs).dropWhile notSpace)

/-- The token sequence `strtok(l, " ")`, `strtok(NULL, " ")`, ... yields. -/
def tokens (l : Str) : List Str := tokensFuel l.length l

/-- The first token of `l` (the value of the initial `strtok(l, " ")` call). -/
def firstTok (l : Str) : Str := (l.dropWhile isSpace).takeWhile notSpace

/-- The buffer contents, read as a C string from its start, after a full
`strtok` pass over `l`: `strtok` overwrites the delimiter terminating each
token with NUL, so the string visible afterwards is the leading spaces
followed by the first token (or `l` unchanged when `l` has no token, since
`strtok` then returns NULL without writing). -/
def strtokResidual (l : Str) : Str :=
  if tokens l = [] then l else l.takeWhile isSpace ++ firstTok l

/-- Loop body of `ParseUserInputToArgs` (smallsh.c:484-516): consume tokens,
breaking (without storing) at `">"` when the line contains `">"`, at `"<"`
when the line contains `"<"`, and always at `"&"`; after storing a token at
index `n` the counter becomes `n + 1`, and when it reaches `MAX_ARGS - 1 =
512` the loop breaks, so at most 512 tokens are stored. -/
def parseLoop (hasOut hasIn : Bool) : List Str → Nat → List Str
  | [], _ => []
  | t :: rest, n =>
    if hasOut = true ∧ t = outSym then []
    else if hasIn = true ∧ t = inSym then []
    else if t = ampSym then []
    else if n + 1 = 512 then [t]
    else t :: parseLoop hasOut hasIn rest (n + 1)

/-- `ParseUserInputToArgs` (smallsh.c:473-520): the argv sequence built from
the user command (the NULL terminator of the C array is implicit in the list
end). -/
def ParseUserInputToArgs (l : Str) : List Str :=
  parseLoop (ContainsString l outSym) (ContainsString l inSym) (tokens l) 0

/-- Is this token a redirection marker (`"<"` or `">"`)? (smallsh.c:557) -/
def isMarker (t : Str) : Bool := decide (t = inSym ∨ t = outSym)

/-- The `redirSymPosition` tracking of `GetFileName`'s scan loop
(smallsh.c:554-573): walk the visited tokens left to right, remembering the
index of the most recent marker; `i` is the index of the current token and
`acc` the position remembered so far (initially 0). -/
def lastMarkerPosAux : List Str → Nat → Nat → Nat
  | [], _, acc => acc
  | t :: rest, i, acc => lastMarkerPosAux rest (i + 1) (if isMarker t = true then i else acc)

/-- The filename computation of `GetFileName` once the scan ran
(smallsh.c:545-579): the scan visits at most `MAX_ARGS - 1 = 512` tokens;
`tempArray[redirSymPosition + 1]` is non-NULL exactly when that index holds
a visited token, in which case it is copied out (`none` models a filename
left unset).  Tokens fit the 2048-byte `fileName` buffer because the
command line itself lives in a 2048-byte buffer, so the `strncpy` copy is
exact and is not modelled as truncating. -/
def GetFileNameCore (l : Str) : Option Str :=
  let ts := (tokens l).take 512
  ts.get? (lastMarkerPosAux ts 0 0 + 1)

/-- `GetFileName` (smallsh.c:535-580) acting on the scanned buffer and the
caller's `fileName` buffer (`ret`; `none` = still empty).  If neither
marker occurs as a substring it returns immediately, leaving both alone;
otherwise it tokenises the buffer in place (mutating it to
`strtokResidual`) and overwrites `fileName` when the token after the last
marker position exists. -/
def GetFileName (l : Str) (ret : Option Str) : Str × Option Str :=
  if ContainsString l inSym = false ∧ ContainsString l outSym = false then (l, ret)
  else
    (strtokResidual l,
      match GetFileNameCore l with
      | some f => some f
      | none => ret)

/-- The redirection-filename resolution sequence shared by
`RunForeGroundCommand` (smallsh.c:362-381) and `RunBackGroundCommand`
(smallsh.c:203-222): test both markers by substring search on the pristine
line, then call `GetFileName` for the output direction and afterwards for
the input direction, each call receiving the buffer as the previous call
left it.  Result: final buffer contents and final `fileName`. -/
def resolveFileNames (l : Str) : Str × Option Str :=
  let hasOut := ContainsString l outSym
  let hasIn := ContainsString l inSym
  let p1 := if hasOut = true then GetFileName l none else (l, none)
  if hasIn = true then GetFileName p1.1 p1.2 else p1

/-- Linux wait-status decoding, `WEXITSTATUS(w) = (w >> 8) & 0xff`. -/
def WEXITSTATUS (w : Nat) : Nat := (w / 256) % 256

/-- Linux wait-status decoding, `WTERMSIG(w) = w & 0x7f`. -/
def WTERMSIG (w : Nat) : Nat := w % 128

/-- Linux (glibc) `WIFSIGNALED(w) = ((signed char)(((w & 0x7f) + 1) >> 1)) > 0`:
true exactly when the low seven bits are neither 0 (normal exit) nor 0x7f
(stopped). -/
def WIFSIGNALED (w : Nat) : Bool := decide (w % 128 ≠ 0 ∧ w % 128 ≠ 127)

/-- The wait status the kernel reports for a child that exited normally
with code `c` (`exit(c)` keeps the low byte, shifted into bits 8-15). -/
def mkExited (c : Nat) : Nat := (c % 256) * 256

/-- The wait status the kernel reports for a child terminated by signal
`s` (low seven bits; the core-dump flag is not modelled). -/
def mkSignaled (s : Nat) : Nat := s % 128

/-- Outcome of the `fork()` call plus, on success, the wait status the
parent's blocking `waitpid` later observes for the foreground child. -/
inductive FgWait where
  | forkFailed
  | waited (w : Nat)
deriving DecidableEq

/-- Observable result of `RunForeGroundCommand` (smallsh.c:353-455):
either the whole interpreter exits (fork failure), or the command
completed with the function's return value (`WEXITSTATUS` of the wait
status), the lines printed by the parent, and the contents left in the
caller's `errMsg` buffer (empty unless the child was signalled; the caller
cleared it beforehand). -/
inductive FgRun where
  | spawnFailed (code : Nat)
  | completed (returnStatus : Nat) (printed : List Str) (errMsg : Str)
deriving DecidableEq

/-- Parent-side behaviour of `RunForeGroundCommand` (smallsh.c:387-455):
`case -1` exits the interpreter with code 1; otherwise the return value is
`WEXITSTATUS(status)` and, when `WIFSIGNALED(status)`, the message
`terminated by signal N` is printed (with a newline, via `printf("%s\n")`)
and copied into `errMsg`. -/
def RunForeGroundCommandModel (f : FgWait) : FgRun :=
  match f with
  | .forkFailed => .spawnFailed 1
  | .waited w =>
    if WIFSIGNALED w = true then
      .completed (WEXITSTATUS w)
        [("terminated by signal ".toList ++ Nat.toDigits 10 (WTERMSIG w)) ++ ['\n']]
        ("terminated by signal ".toList ++ Nat.toDigits 10 (WTERMSIG w))
    else
      .completed (WEXITSTATUS w) [] []

/-- What `execvp` did in the child. -/
inductive ExecOutcome where
  | replaced
  | notFound
deriving DecidableEq

/-- Child-side exec step shared by both launchers (smallsh.c:418-420 and
260-262): on exec failure the child prints `argv[0]: no such file or
directory` and exits with code 1 (`some (message, exitCode)`); on success
the process image is replaced (`none`). -/
def childRun (argv0 : Str) (e : ExecOutcome) : Option (Str × Nat) :=
  match e with
  | .replaced => none
  | .notFound => some (argv0 ++ ": no such file or directory\n".toList, 1)

/-- A source a child's standard descriptor can be wired to. -/
inductive FdSrc where
  | file (name : Str) (forWriting : Bool)
  | devnull
deriving DecidableEq

/-- Result of `RunBackGroundCommand`'s descriptor setup (smallsh.c:200-228):
the single variable `fd` after both `if` statements, the files opened along
the way (in order), the final `fileName` buffer, and the command buffer as
the `GetFileName` calls left it.  `FdSrc.file name true` is an
`O_WRONLY|O_TRUNC|O_CREAT` open, `FdSrc.file name false` an `O_RDONLY`
open. -/
structure BgSetup where
  mutatedLine : Str
  fileName : Option Str
  openedFiles : List FdSrc
  fd : FdSrc
deriving DecidableEq

/-- Descriptor setup of `RunBackGroundCommand` (smallsh.c:203-228).  Note
the single `fd` variable: the input branch always runs (its `else` arm
opens `/dev/null` whenever no input redirect was requested), so it always
overwrites whatever the output branch stored in `fd`. -/
def bgFdSetup (l : Str) : BgSetup :=
  let hasOut := ContainsString l outSym
  let hasIn := ContainsString l inSym
  let p1 := if hasOut = true then GetFileName l none else (l, none)
  let opens1 : List FdSrc :=
    if hasOut = true then [FdSrc.file (p1.2.getD []) true] else []
  if hasIn = true then
    let p2 := GetFileName p1.1 p1.2
    ⟨p2.1, p2.2, opens1 ++ [FdSrc.file (p2.2.getD []) false], FdSrc.file (p2.2.getD []) false⟩
  else
    ⟨p1.1, p1.2, opens1 ++ [FdSrc.devnull], FdSrc.devnull⟩

/-- Where a spawned child's standard streams end up wired (`none` =
inherited from the shell). -/
structure ChildWiring where
  stdoutSrc : Option FdSrc
  stdinSrc : Option FdSrc
deriving DecidableEq

/-- Child-side wiring of `RunBackGroundCommand` (smallsh.c:242-257),
assuming the `dup2` calls succeed: with an output redirect requested,
`dup2(fd, 1)` binds stdout to `fd` and, since it succeeded, the `else if`
then binds stdin to `fd` as well; without one, only stdin is bound to
`fd`. -/
def bgChildWiring (l : Str) : ChildWiring :=
  let setup := bgFdSetup l
  ⟨if ContainsString l outSym = true then some setup.fd else none, some setup.fd⟩

/-- Outcome of the background `fork()` call (on success the child's pid). -/
inductive BgSpawn where
  | forkFailed
  | spawned (pid : Nat)
deriving DecidableEq

/-- Observable result of `RunBackGroundCommand` (smallsh.c:195-277):
fork failure exits the interpreter with code 1; otherwise the parent
prints `background pid is <pid>` and returns without waiting, the child
wired as `bgChildWiring`. -/
inductive BgRun where
  | spawnFailed (code : Nat)
  | launched (printed : Str) (wiring : ChildWiring)
deriving DecidableEq

/-- `RunBackGroundCommand` (smallsh.c:195-277) as a function of the line
and the fork outcome. -/
def RunBackGroundCommandModel (l : Str) (b : BgSpawn) : BgRun :=
  match b with
  | .forkFailed => .spawnFailed 1
  | .spawned pid =>
    .launched ("background pid is ".toList ++ Nat.toDigits 10 pid ++ ['\n']) (bgChildWiring l)

/-- Pad an 80-byte `char` buffer: `strncpy` zero-fills the tail, and the
handler's `write(1, buf, sizeof(buf))` emits all 80 bytes, NUL padding
included. -/
def pad80 (m : Str) : Str := m ++ List.replicate (80 - m.length) (Char.ofNat 0)

/-- The bytes `sigchld_handler` writes for one reaped child
(smallsh.c:298-334): `"\nbackground pid "` (copied by `strncpy`, which
zero-fills the rest of the 80-byte buffer), the pid, `" is done: "`, then
either `terminated by signal N` or `exit value N`, a newline, and the
NUL padding up to the full `sizeof(childTerminateMsg) = 80` bytes that
`write` sends. -/
def childNotice (pid w : Nat) : Str :=
  let base := "\nbackground pid ".toList ++ Nat.toDigits 10 pid ++ " is done: ".toList
  if WIFSIGNALED w = true then
    pad80 (base ++ "terminated by signal ".toList ++ Nat.toDigits 10 (WTERMSIG w) ++ ['\n'])
  else
    pad80 (base ++ "exit value ".toList ++ Nat.toDigits 10 (WEXITSTATUS w) ++ ['\n'])

/-- `sigchld_handler` (smallsh.c:290-338): the non-blocking
`waitpid(-1, &status, WNOHANG)` loop reaps the pending terminated children
one by one, writing one notice per child, and stops when none remain.
Input: the queue of terminated-but-unreaped children as `(pid, status)`
pairs; output: the notices written, in order. -/
def sigchld_handler : List (Nat × Nat) → List Str
  | [] => []
  | (pid, w) :: rest => childNotice pid w :: sigchld_handler rest

/-- The `errMsg` buffer and `statusNumber` variable of `RunShellLoop`
(smallsh.c:70-74). -/
structure ShellState where
  statusNumber : Nat
  errMsg : Str
deriving DecidableEq

/-- Fresh-start state: `statusNumber = 0`, `errMsg = ""`. -/
def initState : ShellState := ⟨0, []⟩

/-- What one trip through the shell loop does after the line was read. -/
inductive LineResult where
  | exitProc (code : Nat)
  | next (st : ShellState) (out : List Str)
deriving DecidableEq

/-- One iteration of `RunShellLoop`'s dispatch (smallsh.c:98-179) on an
already-read line `l`: empty and `#` lines restart the loop; `exit`
terminates with code 0; `cd` and `cd <path>` change directory (not
modelled) and restart; `status` prints `exit value N` (or the stored
error message) and clears the state; any other line first clears the
state, then runs in the background when it contains `&`, else in the
foreground, whose result becomes the new state.  `f` is the foreground
fork/wait outcome and `b` the background fork outcome, consumed only by
the corresponding branch. -/
def processLine (st : ShellState) (l : Str) (f : FgWait) (b : BgSpawn) : LineResult :=
  if l = [] then .next st []
  else if l.get? 0 = some '#' then .next st []
  else if l = "exit".toList then .exitProc 0
  else if l = "cd".toList then .next st []
  else if l.get? 0 = some 'c' ∧ l.get? 1 = some 'd' ∧ l.get? 2 = some ' ' then .next st []
  else if l = "status".toList then
    .next initState
      [if st.errMsg = [] then "exit value ".toList ++ Nat.toDigits 10 st.statusNumber ++ ['\n']
       else st.errMsg ++ ['\n']]
  else if ContainsString l ampSym = true then
    match RunBackGroundCommandModel l b with
    | .spawnFailed c => .exitProc c
    | .launched msg _ => .next initState [msg]
  else
    match RunForeGroundCommandModel f with
    | .spawnFailed c => .exitProc c
    | .completed rs _ msg => .next ⟨rs, msg⟩ []

/-- The `size_t` index `strlen(s) - 1` computed by
`RemoveNewLineAndAddNullTerm` (smallsh.c:617): unsigned 64-bit
subtraction, which underflows to `2^64 - 1` for the empty string. -/
def lnIndex (s : Str) : Nat := (s.length + (2 ^ 64 - 1)) % 2 ^ 64

/-- `RemoveNewLineAndAddNullTerm` (smallsh.c:615-622) with the array
access made explicit: reading `s[lnIndex s]` out of bounds yields `none`
(the undefined access); otherwise a trailing newline is replaced by the
terminator (truncating the string there). -/
def RemoveNewLineAndAddNullTerm (s : Str) : Option Str :=
  match s.get? (lnIndex s) with
  | none => none
  | some c => some (if c = '\n' then s.take (lnIndex s) else s)

/-- What the read phase of `RunShellLoop` does with a freshly read buffer. -/
inductive ReadOutcome where
  | outOfBoundsRead
  | eofExit
  | line (l : Str)
deriving DecidableEq

/-- Read phase of `RunShellLoop` (smallsh.c:82-96): the buffer is cleared
to `""` before `fgets` (so at immediate end of input `fgets` leaves it
empty), `RemoveNewLineAndAddNullTerm` runs on the buffer, and only then is
`feof(stdin)` consulted. -/
def readPhase (fgetsBuf : Str) (eof : Bool) : ReadOutcome :=
  match RemoveNewLineAndAddNullTerm fgetsBuf with
  | none => .outOfBoundsRead
  | some l => if eof then .eofExit else .line l

/-- Spec-side token predicate for the tokenizer claims: a control token the
argv sequence must never contain. -/
def isCtrlTok (t : Str) : Bool := decide (t = outSym ∨ t = inSym ∨ t = ampSym)

/-- Spec-side last-marker search used by the redirection-resolver claims:
the index (from the front) of the first marker of the reversed token list,
i.e. of the last marker in left-to-right order. -/
def findMarkerIdx : List Str → Option Nat
  | [] => none
  | t :: rest => if isMarker t = true then some 0 else (findMarkerIdx rest).map (· + 1)

/-- Spec-side statement of the resolver claim exactly as written: scan the
FULL token sequence of the line, locate the last redirection marker, and
return the token immediately following it (`none` when there is no marker
or no following token). -/
def claimRedirFileName (l : Str) : Option Str :=
  let ts := tokens l
  match findMarkerIdx ts.reverse with
  | some j => ts.get? (ts.length - j)
  | none => none

/-- Spec-side statement of the amended resolver claim: as
`claimRedirFileName`, but the scan only ever sees the first 512 tokens. -/
def specRedirFileName (l : Str) : Option Str :=
  let ts := (tokens l).take 512
  match findMarkerIdx ts.reverse with
  | some j => ts.get? (ts.length - j)
  | none => none

/-- A command line of 512 `a` tokens followed by `> f`: long enough that
the last (and only) redirection marker lies beyond the resolver's 512-token
scan cap. -/
def longLine : Str := (List.replicate 512 ['a', ' ']).flatten ++ ['>', ' ', 'f']

/-! ### Helper lemmas about the tokenizer -/

theorem dropWhile_head_false {p : Char → Bool} :
    ∀ {l : Str} {c : Char} {cs : Str}, l.dropWhile p = c :: cs → p c = false := by
  intro l
  induction l with
  | nil => intro c cs h; simp [List.dropWhile] at h
  | cons a as ih =>
    intro c cs h
    rw [List.dropWhile_cons] at h
    by_cases hp : p a = true
    · rw [if_pos hp] at h; exact ih h
    · rw [if_neg hp] at h
      cases h
      simpa using hp

theorem length_dropWhile_le (p : Char → Bool) (l : Str) :
    (l.dropWhile p).length ≤ l.length :=
  (List.dropWhile_suffix p).length_le

theorem tokensFuel_eq {f : Nat} {l : Str} (h : l.length ≤ f) :
    tokensFuel f l = tokens l := by
  induction f using Nat.strong_induction_on generalizing l with
  | _ f ih =>
    match f with
    | 0 =>
      have hl : l = [] := List.length_eq_zero.mp (Nat.le_zero.mp h)
      subst hl; rfl
    | f + 1 =>
      show tokensFuel (f + 1) l = tokensFuel l.length l
      cases hd : l.dropWhile isSpace with
      | nil =>
        cases hl : l.length with
        | zero => simp [tokensFuel, hd]
        | succ m => simp [tokensFuel, hd]
      | cons c cs =>
        have hlpos : 1 ≤ l.length := by
          rcases l with _ | ⟨a, as⟩
          · simp [List.dropWhile] at hd
          · simp
        have hcs : cs.length + 1 ≤ l.length := by
          have := length_dropWhile_le isSpace l
          rw [hd] at this; simpa using this
        have hc : notSpace c = true := by
          have := dropWhile_head_false hd
          simp [notSpace, this]
        have hrest : ((c :: cs).dropWhile notSpace).length ≤ cs.length := by
          rw [List.dropWhile_cons, if_pos hc]
          exact length_dropWhile_le notSpace cs
        obtain ⟨m, hm⟩ : ∃ m, l.length = m + 1 := ⟨l.length - 1, by omega⟩
        have h1 : tokensFuel f ((c :: cs).dropWhile notSpace)
            = tokens ((c :: cs).dropWhile notSpace) :=
          ih f (Nat.lt_succ_self f) (by omega)
        have h2 : tokensFuel m ((c :: cs).dropWhile notSpace)
            = tokens ((c :: cs).dropWhile notSpace) :=
          ih m (by omega) (by omega)
        rw [hm]
        simp only [tokensFuel, hd, h1, h2]

theorem tokens_eq (l : Str) : tokens l =
    match l.dropWhile isSpace with
    | [] => []
    | c :: cs => ((c :: cs).takeWhile notSpace) :: tokens ((c :: cs).dropWhile notSpace) := by
  show tokensFuel l.length l = _
  cases hd : l.dropWhile isSpace with
  | nil =>
    cases hl : l.length with
    | zero => simp [tokensFuel]
    | succ m => simp [tokensFuel, hd]
  | cons c cs =>
    have hlpos : 1 ≤ l.length := by
      rcases l with _ | ⟨a, as⟩
      · simp [List.dropWhile] at hd
      · simp
    have hcs : cs.length + 1 ≤ l.length := by
      have := length_dropWhile_le isSpace l
      rw [hd] at this; simpa using this
    have hc : notSpace c = true := by
      have := dropWhile_head_false hd
      simp [notSpace, this]
    have hrest : ((c :: cs).dropWhile notSpace).length ≤ cs.length := by
      rw [List.dropWhile_cons, if_pos hc]
      exact length_dropWhile_le notSpace cs
    obtain ⟨m, hm⟩ : ∃ m, l.length = m + 1 := ⟨l.length - 1, by omega⟩
    rw [hm]
    simp only [tokensFuel, hd,
      tokensFuel_eq (show ((c :: cs).dropWhile notSpace).length ≤ m by omega)]

theorem infix_of_mem_tokensFuel :
    ∀ (f : Nat) (l : Str) (t : Str), t ∈ tokensFuel f l → t <:+: l := by
  intro f
  induction f with
  | zero => intro l t h; simp [tokensFuel] at h
  | succ f ih =>
    intro l t h
    unfold tokensFuel at h
    cases hd : l.dropWhile isSpace with
    | nil => rw [hd] at h; simp at h
    | cons c cs =>
      rw [hd] at h
      have hsuf : (c :: cs) <:+ l := hd ▸ List.dropWhile_suffix isSpace
      rcases List.mem_cons.mp h with h1 | h2
      · subst h1
        exact (List.takeWhile_prefix notSpace).isInfix.trans hsuf.isInfix
      · have h3 := ih ((c :: cs).dropWhile notSpace) t h2
        exact h3.trans ((List.dropWhile_suffix notSpace).isInfix.trans hsuf.isInfix)

theorem infix_of_mem_tokens {t l : Str} (h : t ∈ tokens l) : t <:+: l :=
  infix_of_mem_tokensFuel l.length l t h

theorem ContainsString_of_mem_tokens {t l : Str} (h : t ∈ tokens l) :
    ContainsString l t = true :=
  decide_eq_true (infix_of_mem_tokens h)

theorem not_mem_tokens_of_not_contains {t l : Str}
    (h : ContainsString l t = false) : t ∉ tokens l := by
  intro hmem
  rw [ContainsString_of_mem_tokens hmem] at h
  exact Bool.noConfusion h

theorem dropWhile_append_all {p : Char → Bool} :
    ∀ {s t : Str}, (∀ a ∈ s, p a = true) → (s ++ t).dropWhile p = t.dropWhile p := by
  intro s
  induction s with
  | nil => intro t _; rfl
  | cons a as ih =>
    intro t h
    have ha : p a = true := h a (List.mem_cons_self a as)
    rw [List.cons_append, List.dropWhile_cons, if_pos ha]
    exact ih fun x hx => h x (List.mem_cons_of_mem a hx)

theorem takeWhile_all {p : Char → Bool} {l : Str} (h : ∀ a ∈ l, p a = true) :
    l.takeWhile p = l :=
  List.takeWhile_eq_self_iff.mpr h

theorem dropWhile_all {p : Char → Bool} {l : Str} (h : ∀ a ∈ l, p a = true) :
    l.dropWhile p = [] :=
  List.dropWhile_eq_nil_iff.mpr h

theorem tokens_ne_nil_iff {l : Str} : tokens l ≠ [] ↔ l.dropWhile isSpace ≠ [] := by
  rw [tokens_eq l]
  cases hd : l.dropWhile isSpace with
  | nil => simp
  | cons c cs => simp

theorem firstTok_eq {l : Str} {c : Char} {cs : Str} (hd : l.dropWhile isSpace = c :: cs) :
    firstTok l = (c :: cs).takeWhile notSpace := by
  rw [firstTok, hd]

theorem tokens_residual {l : Str} (h : tokens l ≠ []) :
    tokens (strtokResidual l) = [firstTok l] := by
  rw [strtokResidual, if_neg (by simpa using h)]
  cases hd : l.dropWhile isSpace with
  | nil => exact absurd hd (tokens_ne_nil_iff.mp h)
  | cons c cs =>
    have hc : notSpace c = true := by
      have := dropWhile_head_false hd
      simp [notSpace, this]
    have hw : firstTok l = (c :: cs).takeWhile notSpace := firstTok_eq hd
    have hwall : ∀ a ∈ firstTok l, notSpace a = true := by
      intro a ha
      rw [hw] at ha
      exact List.mem_takeWhile_imp ha
    have hwsp : ∀ a ∈ firstTok l, isSpace a = false := by
      intro a ha
      simpa [notSpace] using hwall a ha
    have hspaces : ∀ a ∈ l.takeWhile isSpace, isSpace a = true := by
      intro a ha; exact List.mem_takeWhile_imp ha
    have hwne : firstTok l ≠ [] := by
      rw [hw, List.takeWhile_cons, if_pos hc]
      exact List.cons_ne_nil _ _
    cases hft : firstTok l with
    | nil => exact absurd hft hwne
    | cons x xs =>
      have hxall : ∀ a ∈ (x :: xs), notSpace a = true := by
        rw [← hft]; exact hwall
      have hx : isSpace x = false := by
        rw [hft] at hwsp
        exact hwsp x (List.mem_cons_self x xs)
      have h1 : (l.takeWhile isSpace ++ (x :: xs)).dropWhile isSpace = (x :: xs) := by
        rw [dropWhile_append_all hspaces, List.dropWhile_cons, if_neg (by simp [hx])]
      have key : tokens (l.takeWhile isSpace ++ (x :: xs)) = [x :: xs] := by
        rw [tokens_eq, h1]
        show List.takeWhile notSpace (x :: xs) :: tokens (List.dropWhile notSpace (x :: xs)) = _
        rw [takeWhile_all hxall, dropWhile_all hxall]
        rfl
      exact key

/-! ### The tokenizer loop versus takeWhile-then-truncate -/

theorem parseLoop_eq {hasOut hasIn : Bool} :
    ∀ (ts : List Str), (outSym ∈ ts → hasOut = true) → (inSym ∈ ts → hasIn = true) →
      ∀ n, n < 512 →
        parseLoop hasOut hasIn ts n = (ts.takeWhile fun t => ! isCtrlTok t).take (512 - n) := by
  intro ts
  induction ts with
  | nil => intro _ _ n _; simp [parseLoop]
  | cons t rest ih =>
    intro hOut hIn n hn
    by_cases ht1 : t = outSym
    · have h1 : hasOut = true := hOut (by simp [ht1])
      rw [parseLoop, if_pos ⟨h1, ht1⟩, List.takeWhile_cons,
        if_neg (by simp [isCtrlTok, ht1])]
      simp
    · by_cases ht2 : t = inSym
      · have h2 : hasIn = true := hIn (by simp [ht2])
        rw [parseLoop, if_neg (by intro hco; exact ht1 hco.2),
          if_pos ⟨h2, ht2⟩, List.takeWhile_cons, if_neg (by simp [isCtrlTok, ht2])]
        simp
      · by_cases ht3 : t = ampSym
        · rw [parseLoop, if_neg (by intro hco; exact ht1 hco.2),
            if_neg (by intro hco; exact ht2 hco.2), if_pos ht3,
            List.takeWhile_cons, if_neg (by simp [isCtrlTok, ht3])]
          simp
        · have hctrl : (! isCtrlTok t) = true := by
            simp [isCtrlTok, ht1, ht2, ht3]
          by_cases hcap : n + 1 = 512
          · rw [parseLoop, if_neg (by intro hco; exact ht1 hco.2),
              if_neg (by intro hco; exact ht2 hco.2), if_neg ht3, if_pos hcap,
              List.takeWhile_cons, if_pos hctrl]
            have : 512 - n = 1 := by omega
            rw [this]
            simp
          · rw [parseLoop, if_neg (by intro hco; exact ht1 hco.2),
              if_neg (by intro hco; exact ht2 hco.2), if_neg ht3, if_neg hcap,
              List.takeWhile_cons, if_pos hctrl,
              ih (fun hm => hOut (List.mem_cons_of_mem t hm))
                 (fun hm => hIn (List.mem_cons_of_mem t hm)) (n + 1) (by omega)]
            have : 512 - n = (512 - (n + 1)) + 1 := by omega
            rw [this]
            rfl

theorem ParseUserInputToArgs_eq (l : Str) :
    ParseUserInputToArgs l = ((tokens l).takeWhile fun t => ! isCtrlTok t).take 512 := by
  rw [ParseUserInputToArgs,
    parseLoop_eq (tokens l)
      (fun hm => ContainsString_of_mem_tokens hm)
      (fun hm => ContainsString_of_mem_tokens hm) 0 (by omega)]

/-! ### Marker-position lemmas for the redirection resolver -/

theorem lastMarkerPosAux_append (x : Str) :
    ∀ (xs : List Str) (i acc : Nat),
      lastMarkerPosAux (xs ++ [x]) i acc =
        if isMarker x = true then i + xs.length else lastMarkerPosAux xs i acc := by
  intro xs
  induction xs with
  | nil =>
    intro i acc
    by_cases hm : isMarker x = true
    · simp [lastMarkerPosAux, hm]
    · simp [lastMarkerPosAux, hm]
  | cons y ys ih =>
    intro i acc
    rw [List.cons_append, lastMarkerPosAux, ih, lastMarkerPosAux]
    by_cases hm : isMarker x = true
    · rw [if_pos hm, if_pos hm]
      simp
      omega
    · rw [if_neg hm, if_neg hm]

theorem findMarkerIdx_lt_length :
    ∀ {ts : List Str} {j : Nat}, findMarkerIdx ts = some j → j < ts.length := by
  intro ts
  induction ts with
  | nil => intro j h; simp [findMarkerIdx] at h
  | cons t rest ih =>
    intro j h
    rw [findMarkerIdx] at h
    by_cases hm : isMarker t = true
    · rw [if_pos hm] at h
      cases h
      simp
    · rw [if_neg hm] at h
      cases hrec : findMarkerIdx rest with
      | none => rw [hrec] at h; simp at h
      | some j0 =>
        rw [hrec] at h
        simp at h
        have := ih hrec
        simp
        omega

theorem findMarkerIdx_isSome_of_mem {ts : List Str} {t : Str}
    (hmem : t ∈ ts) (hm : isMarker t = true) : findMarkerIdx ts ≠ none := by
  induction ts with
  | nil => simp at hmem
  | cons y ys ih =>
    rw [findMarkerIdx]
    by_cases hy : isMarker y = true
    · rw [if_pos hy]; simp
    · rw [if_neg hy]
      rcases List.mem_cons.mp hmem with h1 | h2
      · subst h1; exact absurd hm hy
      · have := ih h2
        cases hrec : findMarkerIdx ys with
        | none => exact absurd hrec this
        | some j => simp [hrec]

theorem lastMarkerPosAux_eq {ts : List Str} :
    ∀ {j : Nat}, findMarkerIdx ts.reverse = some j →
      lastMarkerPosAux ts 0 0 = ts.length - 1 - j := by
  induction ts using List.reverseRecOn with
  | nil => intro j hj; simp [findMarkerIdx] at hj
  | append_singleton xs x ih =>
    intro j hj
    rw [List.reverse_append] at hj
    simp only [List.reverse_singleton, List.singleton_append] at hj
    rw [findMarkerIdx] at hj
    by_cases hm : isMarker x = true
    · rw [if_pos hm] at hj
      cases hj
      rw [lastMarkerPosAux_append x xs 0 0, if_pos hm]
      simp
    · rw [if_neg hm] at hj
      cases hrec : findMarkerIdx xs.reverse with
      | none => rw [hrec] at hj; simp at hj
      | some j0 =>
        rw [hrec] at hj
        simp at hj
        have hlt : j0 < xs.length := by
          have := findMarkerIdx_lt_length hrec
          simpa using this
        rw [lastMarkerPosAux_append x xs 0 0, if_neg hm, ih hrec]
        simp
        omega

theorem lastMarkerPosAux_no_marker :
    ∀ {ts : List Str}, (∀ t ∈ ts, isMarker t = false) →
      ∀ i acc, lastMarkerPosAux ts i acc = acc := by
  intro ts
  induction ts with
  | nil => intro _ i acc; rfl
  | cons t rest ih =>
    intro h i acc
    rw [lastMarkerPosAux, if_neg (by simp [h t (List.mem_cons_self t rest)]),
      ih fun y hy => h y (List.mem_cons_of_mem t hy)]

theorem GetFileNameCore_eq_spec {l : Str}
    (h : inSym ∈ (tokens l).take 512 ∨ outSym ∈ (tokens l).take 512) :
    GetFileNameCore l = specRedirFileName l := by
  have hmem : ∃ t ∈ (tokens l).take 512, isMarker t = true := by
    rcases h with h1 | h1
    · exact ⟨inSym, h1, by simp [isMarker, inSym, outSym]⟩
    · exact ⟨outSym, h1, by simp [isMarker, inSym, outSym]⟩
  obtain ⟨t, htmem, htm⟩ := hmem
  have hsome : findMarkerIdx ((tokens l).take 512).reverse ≠ none :=
    findMarkerIdx_isSome_of_mem (List.mem_reverse.mpr htmem) htm
  cases hj : findMarkerIdx ((tokens l).take 512).reverse with
  | none => exact absurd hj hsome
  | some j =>
    have hjlt : j < ((tokens l).take 512).length := by
      have := findMarkerIdx_lt_length hj
      simpa using this
    rw [GetFileNameCore, specRedirFileName]
    simp only [hj, lastMarkerPosAux_eq hj]
    have : ((tokens l).take 512).length - 1 - j + 1 = ((tokens l).take 512).length - j := by
      omega
    rw [this]

theorem getFileName_residual_noop {l : Str} (h : tokens l ≠ []) (r : Option Str) :
    (GetFileName (strtokResidual l) r).2 = r := by
  rw [GetFileName]
  by_cases hg : ContainsString (strtokResidual l) inSym = false ∧
      ContainsString (strtokResidual l) outSym = false
  · rw [if_pos hg]
  · rw [if_neg hg]
    have hcore : GetFileNameCore (strtokResidual l) = none := by
      rw [GetFileNameCore, tokens_residual h]
      rfl
    simp only [hcore]

/-! ### Claim C2: the tokenizer -/

/-- C2.  For every raw line, `ParseUserInputToArgs` yields exactly the
space-delimited tokens of the line in order, stopping (without including)
at the first `">"`, `"<"` or `"&"` token, and in any case after 512
collected tokens; empty input yields the empty sequence; and a line none
of whose tokens is such a marker parses to its plain space-split
truncated at 512 entries. -/
theorem parse_takeWhile_take (l : Str) :
    ParseUserInputToArgs l = ((tokens l).takeWhile fun t => ! isCtrlTok t).take 512
    ∧ ParseUserInputToArgs [] = []
    ∧ (outSym ∉ tokens l → inSym ∉ tokens l → ampSym ∉ tokens l →
        ParseUserInputToArgs l = (tokens l).take 512) := by
  refine ⟨ParseUserInputToArgs_eq l, rfl, fun h1 h2 h3 => ?_⟩
  rw [ParseUserInputToArgs_eq l]
  have hall : ∀ t ∈ tokens l, (! isCtrlTok t) = true := by
    intro t ht
    have hne1 : t ≠ outSym := fun he => h1 (he ▸ ht)
    have hne2 : t ≠ inSym := fun he => h2 (he ▸ ht)
    have hne3 : t ≠ ampSym := fun he => h3 (he ▸ ht)
    simp [isCtrlTok, hne1, hne2, hne3]
  rw [List.takeWhile_eq_self_iff.mpr hall]

/-- Witness for C2 at a concrete line: `"echo a b < in.txt"` tokenizes to
`[echo, a, b]`, and the marker-free line `"ls -l"` parses to its full
space-split. -/
theorem parse_takeWhile_take_witness :
    ParseUserInputToArgs ("echo a b < in.txt".toList) =
      ["echo".toList, ['a'], ['b']]
    ∧ (outSym ∉ tokens ("ls -l".toList) ∧ inSym ∉ tokens ("ls -l".toList) ∧
        ampSym ∉ tokens ("ls -l".toList))
    ∧ ParseUserInputToArgs ("ls -l".toList) = (tokens ("ls -l".toList)).take 512 := by
  refine ⟨by decide, ⟨by decide, by decide, by decide⟩, ?_⟩
  exact (parse_takeWhile_take ("ls -l".toList)).2.2 (by decide) (by decide) (by decide)

/-! ### Claim C6: no marker ever reaches argv -/

/-- C6.  For every line, the argument sequence built by
`ParseUserInputToArgs` never contains the literal token `">"`, `"<"` or
`"&"`: the markers are recognised and stripped during tokenization. -/
theorem argv_never_contains_markers (l : Str) :
    outSym ∉ ParseUserInputToArgs l
    ∧ inSym ∉ ParseUserInputToArgs l
    ∧ ampSym ∉ ParseUserInputToArgs l := by
  have key : ∀ t, t ∈ ParseUserInputToArgs l → (! isCtrlTok t) = true := by
    intro t ht
    rw [ParseUserInputToArgs_eq l] at ht
    have ht2 : t ∈ (tokens l).takeWhile fun t => ! isCtrlTok t :=
      List.mem_of_mem_take ht
    exact @List.mem_takeWhile_imp _ (fun t => ! isCtrlTok t) (tokens l) t ht2
  refine ⟨fun h => ?_, fun h => ?_, fun h => ?_⟩
  · have := key outSym h
    simp [isCtrlTok] at this
  · have := key inSym h
    simp [isCtrlTok] at this
  · have := key ampSym h
    simp [isCtrlTok] at this

/-! ### Claim C3: the redirection resolver -/

theorem tokens_cons_space (R : Str) : tokens (' ' :: R) = tokens R := by
  rw [tokens_eq (' ' :: R), tokens_eq R, List.dropWhile_cons, if_pos (by decide)]

theorem tokens_chain :
    ∀ n : Nat, tokens ((List.replicate n (['a', ' '] : Str)).flatten ++ ['>', ' ', 'f'])
      = List.replicate n ['a'] ++ [['>'], ['f']] := by
  intro n
  induction n with
  | zero => decide
  | succ n ih =>
    rw [List.replicate_succ, List.flatten_cons, List.append_assoc]
    have hform : (['a', ' '] : Str) ++
        ((List.replicate n (['a', ' '] : Str)).flatten ++ ['>', ' ', 'f'])
        = 'a' :: ' ' :: ((List.replicate n (['a', ' '] : Str)).flatten ++ ['>', ' ', 'f']) := rfl
    rw [hform]
    have hscrut : ('a' :: ' ' ::
        ((List.replicate n (['a', ' '] : Str)).flatten ++ ['>', ' ', 'f'])).dropWhile isSpace
        = 'a' :: ' ' :: ((List.replicate n (['a', ' '] : Str)).flatten ++ ['>', ' ', 'f']) := by
      rw [List.dropWhile_cons, if_neg (by decide)]
    rw [tokens_eq, hscrut]
    have h1 : ('a' :: ' ' ::
        ((List.replicate n (['a', ' '] : Str)).flatten ++ ['>', ' ', 'f'])).takeWhile notSpace
        = ['a'] := by
      rw [List.takeWhile_cons, if_pos (by decide), List.takeWhile_cons, if_neg (by decide)]
    have h2 : ('a' :: ' ' ::
        ((List.replicate n (['a', ' '] : Str)).flatten ++ ['>', ' ', 'f'])).dropWhile notSpace
        = ' ' :: ((List.replicate n (['a', ' '] : Str)).flatten ++ ['>', ' ', 'f']) := by
      rw [List.dropWhile_cons, if_pos (by decide), List.dropWhile_cons, if_neg (by decide)]
    show List.takeWhile notSpace
        ('a' :: ' ' :: ((List.replicate n (['a', ' '] : Str)).flatten ++ ['>', ' ', 'f']))
      :: tokens (List.dropWhile notSpace
        ('a' :: ' ' :: ((List.replicate n (['a', ' '] : Str)).flatten ++ ['>', ' ', 'f'])))
      = List.replicate (n + 1) ['a'] ++ [['>'], ['f']]
    rw [h1, h2, tokens_cons_space, ih, List.replicate_succ]
    rfl

theorem tokens_longLine :
    tokens longLine = List.replicate 512 ['a'] ++ [['>'], ['f']] := by
  rw [longLine]
  exact tokens_chain 512

theorem get?_one_replicate (a : Str) : ∀ n : Nat, 2 ≤ n →
    (List.replicate n a).get? 1 = some a := by
  intro n h
  match n, h with
  | n + 2, _ =>
    rw [List.replicate_succ, List.replicate_succ]
    rfl

/-- C3 counterexample.  `longLine` has 512 `a` tokens followed by the
standalone marker `">"` and the filename token `f`; the claim as stated
(the resolver re-scans the FULL line and returns the token after the last
marker) predicts `f`, but `GetFileName` caps its scan at 512 tokens, never
sees the marker, leaves `redirSymPosition` at 0 and returns the second
token `a`. -/
theorem getFileName_full_scan_counterexample :
    outSym ∈ tokens longLine
    ∧ (GetFileName longLine none).2 ≠ claimRedirFileName longLine
    ∧ (GetFileName longLine none).2 = some ['a']
    ∧ claimRedirFileName longLine = some ['f'] := by
  have hlenr : (List.replicate 512 (['a'] : Str)).length = 512 :=
    List.length_replicate 512 _
  have hmem : outSym ∈ tokens longLine := by
    rw [tokens_longLine, outSym]
    exact List.mem_append_right _ (List.mem_cons_self _ _)
  have hout : ContainsString longLine outSym = true :=
    ContainsString_of_mem_tokens hmem
  have htake : (tokens longLine).take 512 = List.replicate 512 ['a'] := by
    rw [tokens_longLine, List.take_append_of_le_length (by rw [hlenr]),
      List.take_replicate, min_self]
  have hval : (GetFileName longLine none).2 = some ['a'] := by
    have hguard : ¬(ContainsString longLine inSym = false ∧
        ContainsString longLine outSym = false) := by
      rintro ⟨h1, h2⟩
      rw [hout] at h2
      exact Bool.noConfusion h2
    have hcore : GetFileNameCore longLine = some ['a'] := by
      rw [GetFileNameCore]
      simp only [htake]
      rw [lastMarkerPosAux_no_marker
        (fun t ht => by rw [List.eq_of_mem_replicate ht]; decide) 0 0]
      exact get?_one_replicate ['a'] 512 (by omega)
    rw [GetFileName, if_neg hguard]
    simp only [hcore]
  have hclaim : claimRedirFileName longLine = some ['f'] := by
    rw [claimRedirFileName]
    simp only [tokens_longLine]
    have hrev : (List.replicate 512 (['a'] : Str) ++ [['>'], ['f']]).reverse
        = ['f'] :: ['>'] :: List.replicate 512 ['a'] := by
      rw [List.reverse_append, List.reverse_replicate]
      rfl
    have hfind : findMarkerIdx (['f'] :: ['>'] :: List.replicate 512 (['a'] : Str))
        = some 1 := by
      rw [findMarkerIdx, if_neg (by decide), findMarkerIdx, if_pos (by decide)]
      rfl
    have hlen : (List.replicate 512 (['a'] : Str) ++ [['>'], ['f']]).length = 514 := by
      rw [List.length_append, hlenr]
      rfl
    have hget : (List.replicate 512 (['a'] : Str) ++ [['>'], ['f']]).get? 513
        = some ['f'] := by
      rw [List.get?_append_right (by rw [hlenr]; omega), hlenr]
      rfl
    simp only [hrev, hfind, hlen, hget]
  refine ⟨hmem, ?_, hval, hclaim⟩
  rw [hval, hclaim]
  decide

/-- C3 as amended.  For every line holding a redirection marker as a
standalone token among its first 512 tokens, the first `GetFileName`
invocation returns the token immediately following the last marker among
the first 512 tokens (unset when no token follows it), and after the
second invocation of the `resolveFileNames` sequence the resulting
filename is still exactly that value. -/
theorem getFileName_locates_last_marker (l : Str)
    (h : inSym ∈ (tokens l).take 512 ∨ outSym ∈ (tokens l).take 512) :
    (GetFileName l none).2 = specRedirFileName l
    ∧ (resolveFileNames l).2 = specRedirFileName l := by
  have htok : ∀ t, t ∈ (tokens l).take 512 → t ∈ tokens l := fun t ht =>
    List.mem_of_mem_take ht
  have hne : tokens l ≠ [] := by
    intro hnil
    rcases h with h1 | h1
    · have := htok _ h1; rw [hnil] at this; simp at this
    · have := htok _ h1; rw [hnil] at this; simp at this
  have hguard : ¬(ContainsString l inSym = false ∧ ContainsString l outSym = false) := by
    rintro ⟨hin, hout⟩
    rcases h with h1 | h1
    · exact not_mem_tokens_of_not_contains hin (htok _ h1)
    · exact not_mem_tokens_of_not_contains hout (htok _ h1)
  have hfirst : (GetFileName l none).2 = specRedirFileName l := by
    rw [GetFileName, if_neg hguard]
    rw [GetFileNameCore_eq_spec h]
    cases hs : specRedirFileName l with
    | none => rfl
    | some f => rfl
  refine ⟨hfirst, ?_⟩
  rw [resolveFileNames]
  by_cases hout : ContainsString l outSym = true
  · simp only [hout, if_pos]
    have hmut : (GetFileName l none).1 = strtokResidual l := by
      rw [GetFileName, if_neg hguard]
    by_cases hin : ContainsString l inSym = true
    · simp only [hin, if_pos]
      rw [hmut, getFileName_residual_noop hne, hfirst]
    · simp only [hin]
      simp only [Bool.not_eq_true] at hin
      simp [hin, hfirst]
  · simp only [Bool.not_eq_true] at hout
    simp only [hout]
    have hinmem : inSym ∈ (tokens l).take 512 := by
      rcases h with h1 | h1
      · exact h1
      · exact absurd (ContainsString_of_mem_tokens (htok _ h1)) (by simp [hout])
    have hin : ContainsString l inSym = true :=
      ContainsString_of_mem_tokens (htok _ hinmem)
    simp [hin, hfirst]

/-- Witness for C3 (amended) at `"sort < a > b"`: both invocations leave
the filename at `b`, the token after the last marker. -/
theorem getFileName_locates_last_marker_witness :
    (inSym ∈ (tokens ("sort < a > b".toList)).take 512
      ∨ outSym ∈ (tokens ("sort < a > b".toList)).take 512)
    ∧ ((GetFileName ("sort < a > b".toList) none).2 = specRedirFileName ("sort < a > b".toList)
        ∧ (resolveFileNames ("sort < a > b".toList)).2 = specRedirFileName ("sort < a > b".toList))
    ∧ specRedirFileName ("sort < a > b".toList) = some ['b'] :=
  ⟨by decide, getFileName_locates_last_marker ("sort < a > b".toList) (by decide), by decide⟩

/-! ### Claim C9: markers embedded in longer tokens -/

/-- C9.  For a line in which `"<"` or `">"` occurs as a substring but
never as a standalone token, `GetFileName` passes its substring guard yet
finds no marker token, so `redirSymPosition` stays 0 and the filename
returned is the line's second token (token index 1) when present, and is
left unset otherwise. -/
theorem getFileName_embedded_marker (l : Str)
    (hsub : inSym <:+: l ∨ outSym <:+: l)
    (hin : inSym ∉ tokens l) (hout : outSym ∉ tokens l) :
    (GetFileName l none).2 = (tokens l).get? 1 := by
  have hguard : ¬(ContainsString l inSym = false ∧ ContainsString l outSym = false) := by
    rintro ⟨h1, h2⟩
    rcases hsub with hs | hs
    · rw [ContainsString, decide_eq_true hs] at h1; exact Bool.noConfusion h1
    · rw [ContainsString, decide_eq_true hs] at h2; exact Bool.noConfusion h2
  have hnomark : ∀ t ∈ (tokens l).take 512, isMarker t = false := by
    intro t ht
    have hmem : t ∈ tokens l := List.mem_of_mem_take ht
    have h1 : t ≠ inSym := fun he => hin (he ▸ hmem)
    have h2 : t ≠ outSym := fun he => hout (he ▸ hmem)
    simp [isMarker, h1, h2]
  rw [GetFileName, if_neg hguard, GetFileNameCore,
    lastMarkerPosAux_no_marker hnomark 0 0]
  rw [List.get?_take (by omega)]
  cases hg : (tokens l).get? 1 with
  | none => rfl
  | some f => rfl

/-- Witness for C9 at `"echo a>b"`: the marker occurs only inside the
token `a>b`, and `GetFileName` returns that second token as the
"filename". -/
theorem getFileName_embedded_marker_witness :
    (inSym <:+: ("echo a>b".toList) ∨ outSym <:+: ("echo a>b".toList))
    ∧ inSym ∉ tokens ("echo a>b".toList)
    ∧ outSym ∉ tokens ("echo a>b".toList)
    ∧ (GetFileName ("echo a>b".toList) none).2 = (tokens ("echo a>b".toList)).get? 1
    ∧ (tokens ("echo a>b".toList)).get? 1 = some ("a>b".toList) :=
  ⟨by decide, by decide, by decide,
    getFileName_embedded_marker ("echo a>b".toList) (by decide) (by decide) (by decide),
    by decide⟩

/-! ### Wait-status decoding lemmas -/

theorem WIFSIGNALED_mkExited (c : Nat) : WIFSIGNALED (mkExited c) = false := by
  simp only [WIFSIGNALED, mkExited, decide_eq_false_iff_not]
  omega

theorem WEXITSTATUS_mkExited {c : Nat} (h : c < 256) : WEXITSTATUS (mkExited c) = c := by
  rw [WEXITSTATUS, mkExited]
  omega

theorem WIFSIGNALED_mkSignaled {s : Nat} (h0 : 0 < s) (h1 : s < 127) :
    WIFSIGNALED (mkSignaled s) = true := by
  simp only [WIFSIGNALED, mkSignaled, decide_eq_true_eq]
  omega

theorem WTERMSIG_mkSignaled {s : Nat} (h1 : s < 127) : WTERMSIG (mkSignaled s) = s := by
  rw [WTERMSIG, mkSignaled]
  omega

theorem WEXITSTATUS_mkSignaled {s : Nat} (h1 : s < 127) :
    WEXITSTATUS (mkSignaled s) = 0 := by
  rw [WEXITSTATUS, mkSignaled]
  omega

/-! ### Claim C1: foreground outcome decoding -/

/-- C1.  For every foreground child that exits normally with a code below
256 (so in particular 0, 1 and 42), the value `RunForeGroundCommand`
returns — the number later held as the status — is exactly that exit
code, and nothing is printed or stored in `errMsg`; for every child
terminated by a (real, 1-126) signal `s`, the message
`terminated by signal s` is printed immediately (with a newline) and
stored as the outcome in `errMsg`. -/
theorem foreground_outcome :
    (∀ c : Nat, c < 256 →
      RunForeGroundCommandModel (.waited (mkExited c)) = .completed c [] [])
    ∧ (∀ s : Nat, 0 < s → s < 127 →
      RunForeGroundCommandModel (.waited (mkSignaled s)) =
        .completed 0
          [("terminated by signal ".toList ++ Nat.toDigits 10 s) ++ ['\n']]
          ("terminated by signal ".toList ++ Nat.toDigits 10 s)) := by
  constructor
  · intro c hc
    rw [RunForeGroundCommandModel]
    rw [if_neg (by rw [WIFSIGNALED_mkExited]; exact Bool.noConfusion)]
    rw [WEXITSTATUS_mkExited hc]
  · intro s h0 h127
    rw [RunForeGroundCommandModel]
    rw [if_pos (WIFSIGNALED_mkSignaled h0 h127)]
    rw [WEXITSTATUS_mkSignaled h127, WTERMSIG_mkSignaled h127]

/-- Witness for C1: a child exiting 42 is recorded as status 42 with no
message; a child killed by signal 9 yields the printed and stored message
`terminated by signal 9`. -/
theorem foreground_outcome_witness :
    RunForeGroundCommandModel (.waited (mkExited 42)) = .completed 42 [] []
    ∧ RunForeGroundCommandModel (.waited (mkSignaled 9)) =
        .completed 0
          [("terminated by signal ".toList ++ Nat.toDigits 10 9) ++ ['\n']]
          ("terminated by signal ".toList ++ Nat.toDigits 10 9) :=
  ⟨foreground_outcome.1 42 (by omega), foreground_outcome.2 9 (by omega) (by omega)⟩

/-! ### Claim C8: spawn failure versus exec failure -/

/-- C8.  A failed `fork` terminates the whole interpreter immediately with
exit code 1, with no retry, on both the foreground and the background
path; a failed `exec` is confined to the child, which prints
`argv[0]: no such file or directory` and exits with code 1, and the parent
decodes that as a plain exit-code-1 completion — the same decoding it
would apply to a program that itself returned 1. -/
theorem spawn_and_exec_failures :
    RunForeGroundCommandModel .forkFailed = .spawnFailed 1
    ∧ (∀ l : Str, RunBackGroundCommandModel l .forkFailed = .spawnFailed 1)
    ∧ (∀ argv0 : Str, childRun argv0 .notFound =
        some (argv0 ++ ": no such file or directory\n".toList, 1))
    ∧ RunForeGroundCommandModel (.waited (mkExited 1)) = .completed 1 [] [] := by
  refine ⟨rfl, fun l => rfl, fun argv0 => rfl, ?_⟩
  rw [RunForeGroundCommandModel]
  rw [if_neg (by rw [WIFSIGNALED_mkExited]; exact Bool.noConfusion)]
  rw [WEXITSTATUS_mkExited (by omega)]

/-! ### Claim C4: background output redirection -/

/-- C4 evaluation at the claim's own scenario `ls > out.txt &`.  The
launcher does open `out.txt` write-only with create and truncate — but the
`else` arm of the input-redirect `if` then opens `/dev/null` into the same
`fd` variable, so the child's standard output is bound to the `/dev/null`
descriptor, not to `out.txt` (which therefore stays empty);  standard
input is bound to the null device as claimed. -/
theorem background_redirect_bug :
    (bgFdSetup ("ls > out.txt &".toList)).openedFiles
        = [FdSrc.file ("out.txt".toList) true, FdSrc.devnull]
    ∧ bgChildWiring ("ls > out.txt &".toList)
        = ⟨some FdSrc.devnull, some FdSrc.devnull⟩
    ∧ (bgChildWiring ("ls > out.txt &".toList)).stdoutSrc
        ≠ some (FdSrc.file ("out.txt".toList) true) :=
  ⟨by decide, by decide, by decide⟩

/-! ### Claim C5: the termination reaper -/

/-- C5 counterexample.  The handler's notice for a child with pid 5 that
exited 0 is not exactly the bytes `background pid 5 is done: exit value 0`:
the message is assembled starting with a `"\n"`, ends with a newline, and
`write(1, buf, sizeof(buf))` emits the whole 80-byte buffer, NUL padding
included. -/
theorem reaper_notice_counterexample :
    sigchld_handler [(5, mkExited 0)]
      ≠ [("background pid 5 is done: exit value 0".toList)] := by
  decide

/-- C5 as amended.  On each invocation the reap loop writes exactly one
notice per reaped child, in order, and stops when none remain; the notice
for a normally-exited child is a newline, then exactly
`background pid <pid> is done: exit value <code>` with the child's pid and
its correct exit code, then a newline, NUL-padded to the fixed 80-byte
write; for a signal-killed child the tail is
`terminated by signal <n>` with the correct signal number. -/
theorem reaper_notices :
    (∀ pending : List (Nat × Nat), (sigchld_handler pending).length = pending.length)
    ∧ sigchld_handler [] = []
    ∧ (∀ (pid c : Nat) (rest : List (Nat × Nat)), c < 256 →
        sigchld_handler ((pid, mkExited c) :: rest) =
          pad80 ('\n' :: ("background pid ".toList ++ Nat.toDigits 10 pid
              ++ " is done: exit value ".toList ++ Nat.toDigits 10 c ++ ['\n']))
            :: sigchld_handler rest)
    ∧ (∀ (pid s : Nat) (rest : List (Nat × Nat)), 0 < s → s < 127 →
        sigchld_handler ((pid, mkSignaled s) :: rest) =
          pad80 ('\n' :: ("background pid ".toList ++ Nat.toDigits 10 pid
              ++ " is done: terminated by signal ".toList ++ Nat.toDigits 10 s ++ ['\n']))
            :: sigchld_handler rest) := by
  have hlen : ∀ pending : List (Nat × Nat),
      (sigchld_handler pending).length = pending.length := by
    intro pending
    induction pending with
    | nil => rfl
    | cons pw rest ih =>
      rcases pw with ⟨pid, w⟩
      rw [sigchld_handler, List.length_cons, List.length_cons, ih]
  refine ⟨hlen, rfl, ?_, ?_⟩
  · intro pid c rest hc
    rw [sigchld_handler]
    have hmsg : childNotice pid (mkExited c) =
        pad80 ('\n' :: ("background pid ".toList ++ Nat.toDigits 10 pid
          ++ " is done: exit value ".toList ++ Nat.toDigits 10 c ++ ['\n'])) := by
      rw [childNotice]
      rw [if_neg (by rw [WIFSIGNALED_mkExited]; exact Bool.noConfusion)]
      rw [WEXITSTATUS_mkExited hc]
      have hsplit : ("\nbackground pid ".toList : Str) = '\n' :: "background pid ".toList := rfl
      have hmerge : (" is done: ".toList : Str) ++ "exit value ".toList
          = " is done: exit value ".toList := rfl
      rw [hsplit]
      simp only [List.cons_append, List.append_assoc]
      rw [← List.append_assoc (" is done: ".toList) ("exit value ".toList), hmerge]
    rw [hmsg]
  · intro pid s rest h0 h127
    rw [sigchld_handler]
    have hmsg : childNotice pid (mkSignaled s) =
        pad80 ('\n' :: ("background pid ".toList ++ Nat.toDigits 10 pid
          ++ " is done: terminated by signal ".toList ++ Nat.toDigits 10 s ++ ['\n'])) := by
      rw [childNotice]
      rw [if_pos (WIFSIGNALED_mkSignaled h0 h127)]
      rw [WTERMSIG_mkSignaled h127]
      have hsplit : ("\nbackground pid ".toList : Str) = '\n' :: "background pid ".toList := rfl
      have hmerge : (" is done: ".toList : Str) ++ "terminated by signal ".toList
          = " is done: terminated by signal ".toList := rfl
      rw [hsplit]
      simp only [List.cons_append, List.append_assoc]
      rw [← List.append_assoc (" is done: ".toList) ("terminated by signal ".toList), hmerge]
    rw [hmsg]

/-- Witness for C5 (amended): the single notice the handler writes for a
child with pid 5 that exited 0. -/
theorem reaper_notices_witness :
    sigchld_handler [(5, mkExited 0)] =
      pad80 ('\n' :: ("background pid ".toList ++ Nat.toDigits 10 5
          ++ " is done: exit value ".toList ++ Nat.toDigits 10 0 ++ ['\n']))
        :: sigchld_handler [] :=
  reaper_notices.2.2.1 5 0 [] (by omega)

/-! ### Claim C7: the status-state lifecycle -/

/-- C7 counterexample.  After a foreground command exits 1, the line `cd`
— an input line that is not a status query — leaves the status state
untouched (the dispatch chain `continue`s before reaching the clearing
branch), so a following `status` renders `exit value 1`, not the
`exit value 0` the claimed reset would give. -/
theorem status_reset_counterexample :
    processLine initState ['x'] (FgWait.waited (mkExited 1)) (BgSpawn.spawned 0)
        = .next ⟨1, []⟩ []
    ∧ processLine ⟨1, []⟩ ("cd".toList) (FgWait.waited (mkExited 0)) (BgSpawn.spawned 0)
        = .next ⟨1, []⟩ []
    ∧ (⟨1, []⟩ : ShellState) ≠ initState
    ∧ processLine ⟨1, []⟩ ("status".toList) (FgWait.waited (mkExited 0)) (BgSpawn.spawned 0)
        = .next initState [("exit value 1".toList ++ ['\n'])] :=
  ⟨by decide, by decide, by decide, by decide⟩

/-- C7 as amended.  The status state is cleared at the start of processing
every line that reaches command dispatch — i.e. is neither empty, a
comment, `exit`, `cd`, `cd <path>` nor `status` — so processing such a
line is independent of the prior state; empty, comment and `cd` lines
leave the state unchanged; `status` on a fresh start renders
`exit value 0`; and the only dispatch that can leave a value other than
the incoming state or the initial state is a completed foreground
command. -/
theorem status_state_lifecycle :
    (∀ (st : ShellState) (l : Str) (f : FgWait) (b : BgSpawn),
      l ≠ [] → l.get? 0 ≠ some '#' → l ≠ "exit".toList → l ≠ "cd".toList →
      ¬(l.get? 0 = some 'c' ∧ l.get? 1 = some 'd' ∧ l.get? 2 = some ' ') →
      l ≠ "status".toList →
      processLine st l f b = processLine initState l f b)
    ∧ (∀ (st : ShellState) (l : Str) (f : FgWait) (b : BgSpawn),
      (l = [] ∨ l.get? 0 = some '#' ∨ l = "cd".toList ∨
        (l.get? 0 = some 'c' ∧ l.get? 1 = some 'd' ∧ l.get? 2 = some ' ')) →
      processLine st l f b = .next st [])
    ∧ (∀ (f : FgWait) (b : BgSpawn),
      processLine initState ("status".toList) f b =
        .next initState [("exit value 0".toList ++ ['\n'])])
    ∧ (∀ (st : ShellState) (l : Str) (f : FgWait) (b : BgSpawn)
        (st' : ShellState) (out : List Str),
      processLine st l f b = .next st' out → st' ≠ st → st' ≠ initState →
      ContainsString l ampSym = false ∧ ∃ w, f = FgWait.waited w) := by
  refine ⟨?_, ?_, ?_, ?_⟩
  · intro st l f b h1 h2 h3 h4 h5 h6
    simp only [processLine, if_neg h1, if_neg h2, if_neg h3, if_neg h4, if_neg h5, if_neg h6]
  · intro st l f b h
    rcases h with h | h | h | h
    · subst h; rw [processLine, if_pos rfl]
    · have hne : l ≠ [] := by intro he; subst he; simp at h
      rw [processLine, if_neg hne, if_pos h]
    · subst h
      rw [processLine, if_neg (by decide), if_neg (by decide), if_neg (by decide),
        if_pos rfl]
    · have hne : l ≠ [] := by intro he; subst he; simp at h
      have hnc : l.get? 0 ≠ some '#' := by rw [h.1]; decide
      have hnx : l ≠ "exit".toList := by
        intro he; rw [he] at h; exact absurd h.1 (by decide)
      have hncd : l ≠ "cd".toList := by
        intro he; rw [he] at h; exact absurd h.2.2 (by decide)
      rw [processLine, if_neg hne, if_neg hnc, if_neg hnx, if_neg hncd, if_pos h]
  · intro f b
    rfl
  · intro st l f b st' out h hnst hni
    rw [processLine] at h
    by_cases c1 : l = []
    · rw [if_pos c1] at h; cases h; exact absurd rfl hnst
    rw [if_neg c1] at h
    by_cases c2 : l.get? 0 = some '#'
    · rw [if_pos c2] at h; cases h; exact absurd rfl hnst
    rw [if_neg c2] at h
    by_cases c3 : l = "exit".toList
    · rw [if_pos c3] at h; simp at h
    rw [if_neg c3] at h
    by_cases c4 : l = "cd".toList
    · rw [if_pos c4] at h; cases h; exact absurd rfl hnst
    rw [if_neg c4] at h
    by_cases c5 : l.get? 0 = some 'c' ∧ l.get? 1 = some 'd' ∧ l.get? 2 = some ' '
    · rw [if_pos c5] at h; cases h; exact absurd rfl hnst
    rw [if_neg c5] at h
    by_cases c6 : l = "status".toList
    · rw [if_pos c6] at h; cases h; exact absurd rfl hni
    rw [if_neg c6] at h
    by_cases c7 : ContainsString l ampSym = true
    · rw [if_pos c7] at h
      cases hb : RunBackGroundCommandModel l b with
      | spawnFailed c => rw [hb] at h; simp at h
      | launched msg w => rw [hb] at h; cases h; exact absurd rfl hni
    · rw [if_neg c7] at h
      refine ⟨by simpa using c7, ?_⟩
      cases f with
      | forkFailed => simp [RunForeGroundCommandModel] at h
      | waited w => exact ⟨w, rfl⟩

/-- Witness for C7 (amended) at concrete inputs: processing `ls` ignores a
stale state `⟨7, "z"⟩`, and `cd` preserves it. -/
theorem status_state_lifecycle_witness :
    processLine ⟨7, ['z']⟩ ("ls".toList) (FgWait.waited (mkExited 0)) (BgSpawn.spawned 3)
      = processLine initState ("ls".toList) (FgWait.waited (mkExited 0)) (BgSpawn.spawned 3)
    ∧ processLine ⟨7, ['z']⟩ ("cd".toList) (FgWait.waited (mkExited 0)) (BgSpawn.spawned 3)
      = .next ⟨7, ['z']⟩ [] :=
  ⟨status_state_lifecycle.1 ⟨7, ['z']⟩ ("ls".toList) (FgWait.waited (mkExited 0))
      (BgSpawn.spawned 3) (by decide) (by decide) (by decide) (by decide) (by decide)
      (by decide),
    status_state_lifecycle.2.1 ⟨7, ['z']⟩ ("cd".toList) (FgWait.waited (mkExited 0))
      (BgSpawn.spawned 3) (Or.inr (Or.inr (Or.inl rfl)))⟩

/-! ### Claim C10: the strlen-1 underflow -/

/-- C10.  `RemoveNewLineAndAddNullTerm` computes the `size_t` index
`strlen(s) - 1` and reads `s` there before any length check, so the empty
string makes the index underflow to `2^64 - 1` and the read go out of
bounds; the empty string reaches the call site because the read phase
clears the buffer, `fgets` leaves it empty at end of input, and the
function runs before the `feof` check; every non-empty string (of buffer
size at most 2048) is read in bounds at index `length - 1`. -/
theorem remove_newline_underflow :
    lnIndex [] = 2 ^ 64 - 1
    ∧ List.get? ([] : Str) (lnIndex []) = none
    ∧ readPhase [] true = ReadOutcome.outOfBoundsRead
    ∧ (∀ s : Str, s ≠ [] → s.length ≤ 2048 →
        lnIndex s = s.length - 1 ∧ (RemoveNewLineAndAddNullTerm s).isSome = true) := by
  have h2 : List.get? ([] : Str) (lnIndex []) = none :=
    List.get?_eq_none.mpr (Nat.zero_le _)
  refine ⟨?_, h2, ?_, ?_⟩
  · rw [lnIndex]
    norm_num
  · rw [readPhase, RemoveNewLineAndAddNullTerm, h2]
  · intro s hne hlen
    have hpos : 0 < s.length := List.length_pos.mpr hne
    have hidx : lnIndex s = s.length - 1 := by
      rw [lnIndex]
      have h64 : (2 : Nat) ^ 64 = 18446744073709551616 := by norm_num
      rw [h64]
      omega
    refine ⟨hidx, ?_⟩
    rw [RemoveNewLineAndAddNullTerm]
    cases hg : s.get? (lnIndex s) with
    | none =>
      have hle := List.get?_eq_none.mp hg
      rw [hidx] at hle
      exact absurd hle (by omega)
    | some c => rfl

/-- Witness for C10: the non-empty buffer `hi\n` is processed in bounds
(at index 2) and its newline stripped. -/
theorem remove_newline_underflow_witness :
    (['h', 'i', '\n'] : Str) ≠ []
    ∧ (['h', 'i', '\n'] : Str).length ≤ 2048
    ∧ lnIndex ['h', 'i', '\n'] = (['h', 'i', '\n'] : Str).length - 1
    ∧ (RemoveNewLineAndAddNullTerm ['h', 'i', '\n']).isSome = true := by
  have h := remove_newline_underflow.2.2.2 ['h', 'i', '\n'] (by decide) (by decide)
  exact ⟨by decide, by decide, h.1, h.2⟩

end Smallsh
